import Mathlib

/-!
# Verification of the tegdb storage engine (`src/engine.rs`)

A shallow embedding of the Bitcask-style append-only key-value engine:
byte strings are `List Nat`, the `BTreeMap` index is a sorted association
list, the on-disk log is modelled both as a list of `(key, value)` records
and, where byte-level facts matter (replay, file length), as the list of
bytes produced by the record encoder.  Fallible operations return
`Option` (`none` models a Rust panic) or carry an explicit result
constructor for `io::Error` with `ErrorKind::InvalidInput`.
-/

set_option maxHeartbeats 1000000

/-- Byte strings (keys, values, file contents). Entries are byte values. -/
abbrev Bytes := List Nat

/-- Strict byte-lexicographic order on byte strings, as Rust derives
`Ord` for `Vec<u8>` (shorter prefix sorts first). -/
def lexLt : Bytes → Bytes → Bool
  | [], [] => false
  | [], _ :: _ => true
  | _ :: _, [] => false
  | a :: as, b :: bs => a < b || (a == b && lexLt as bs)

/-- Non-strict byte-lexicographic order. -/
def lexLe (a b : Bytes) : Bool := !(lexLt b a)

theorem lexLt_irrefl (a : Bytes) : lexLt a a = false := by
  induction a with
  | nil => rfl
  | cons x xs ih => simp [lexLt, ih]

theorem lexLt_trans {a b c : Bytes} (hab : lexLt a b = true)
    (hbc : lexLt b c = true) : lexLt a c = true := by
  induction a generalizing b c with
  | nil =>
    cases c with
    | nil =>
      cases b with
      | nil => exact hbc
      | cons y ys => simp [lexLt] at hbc
    | cons z zs => simp [lexLt]
  | cons x xs ih =>
    cases b with
    | nil => simp [lexLt] at hab
    | cons y ys =>
      cases c with
      | nil => simp [lexLt] at hbc
      | cons z zs =>
        simp only [lexLt, Bool.or_eq_true, Bool.and_eq_true, beq_iff_eq,
          decide_eq_true_eq] at hab hbc ⊢
        rcases hab with h1 | ⟨h1, h1r⟩ <;> rcases hbc with h2 | ⟨h2, h2r⟩
        · exact Or.inl (Nat.lt_trans h1 h2)
        · exact Or.inl (h2 ▸ h1)
        · exact Or.inl (h1 ▸ h2)
        · exact Or.inr ⟨h1.trans h2, ih h1r h2r⟩

theorem lexLt_total (a b : Bytes) :
    lexLt a b = true ∨ a = b ∨ lexLt b a = true := by
  induction a generalizing b with
  | nil =>
    cases b with
    | nil => exact Or.inr (Or.inl rfl)
    | cons y ys => exact Or.inl (by simp [lexLt])
  | cons x xs ih =>
    cases b with
    | nil => exact Or.inr (Or.inr (by simp [lexLt]))
    | cons y ys =>
      rcases Nat.lt_trichotomy x y with h | h | h
      · exact Or.inl (by simp [lexLt, h])
      · rcases ih ys with h2 | h2 | h2
        · exact Or.inl (by simp [lexLt, h, h2])
        · exact Or.inr (Or.inl (by rw [h, h2]))
        · exact Or.inr (Or.inr (by simp [lexLt, h, h2]))
      · exact Or.inr (Or.inr (by simp [lexLt, h]))

theorem lexLt_asymm {a b : Bytes} (h : lexLt a b = true) :
    lexLt b a = false := by
  by_contra hc
  have hba : lexLt b a = true := by
    cases hval : lexLt b a with
    | false => exact absurd hval hc
    | true => rfl
  have := lexLt_trans h hba
  rw [lexLt_irrefl] at this
  exact Bool.false_ne_true this

theorem lexLt_ne {a b : Bytes} (h : lexLt a b = true) : a ≠ b := by
  intro he
  subst he
  rw [lexLt_irrefl] at h
  exact Bool.false_ne_true h

/-- The in-memory index: `type KeyMap = BTreeMap<Vec<u8>, Vec<u8>>`
(engine.rs line 17), modelled as an association list kept sorted by
strictly increasing byte-lexicographic key order. -/
abbrev KeyMap := List (Bytes × Bytes)

/-- `BTreeMap::get`: the value bound to `k`, if any. -/
def KeyMap.get : KeyMap → Bytes → Option Bytes
  | [], _ => none
  | (k0, v0) :: rest, k => if k = k0 then some v0 else KeyMap.get rest k

/-- `BTreeMap::insert`: unconditional replace, keeping sorted order. -/
def KeyMap.insert : KeyMap → Bytes → Bytes → KeyMap
  | [], k, v => [(k, v)]
  | (k0, v0) :: rest, k, v =>
    if lexLt k k0 then (k, v) :: (k0, v0) :: rest
    else if k = k0 then (k, v) :: rest
    else (k0, v0) :: KeyMap.insert rest k v

/-- `BTreeMap::remove`: drop the binding of `k`, no-op if absent. -/
def KeyMap.remove : KeyMap → Bytes → KeyMap
  | [], _ => []
  | (k0, v0) :: rest, k =>
    if k = k0 then rest else (k0, v0) :: KeyMap.remove rest k

/-- The `BTreeMap` structural invariant: keys strictly ascending in
byte-lexicographic order. -/
def SortedKM (m : KeyMap) : Prop :=
  (m.map Prod.fst).Pairwise (fun a b => lexLt a b = true)

theorem get_insert_self (m : KeyMap) (k v : Bytes) :
    (m.insert k v).get k = some v := by
  induction m with
  | nil => simp [KeyMap.insert, KeyMap.get]
  | cons p rest ih =>
    obtain ⟨k0, v0⟩ := p
    by_cases h1 : lexLt k k0
    · simp [KeyMap.insert, h1, KeyMap.get]
    · by_cases h2 : k = k0
      · subst h2
        simp [KeyMap.insert, lexLt_irrefl, KeyMap.get]
      · simp [KeyMap.insert, h1, h2, KeyMap.get, ih]

theorem get_insert_ne (m : KeyMap) (k v k2 : Bytes) (hne : k2 ≠ k) :
    (m.insert k v).get k2 = m.get k2 := by
  induction m with
  | nil => simp [KeyMap.insert, KeyMap.get, hne]
  | cons p rest ih =>
    obtain ⟨k0, v0⟩ := p
    by_cases h1 : lexLt k k0
    · simp [KeyMap.insert, h1, KeyMap.get, hne]
    · by_cases h2 : k = k0
      · subst h2
        simp [KeyMap.insert, h1, KeyMap.get, hne]
      · simp [KeyMap.insert, h1, h2, KeyMap.get, ih]

theorem get_remove_ne (m : KeyMap) (k k2 : Bytes) (hne : k2 ≠ k) :
    (m.remove k).get k2 = m.get k2 := by
  induction m with
  | nil => simp [KeyMap.remove]
  | cons p rest ih =>
    obtain ⟨k0, v0⟩ := p
    by_cases h1 : k = k0
    · subst h1
      simp [KeyMap.remove, KeyMap.get, hne]
    · simp [KeyMap.remove, h1, KeyMap.get, ih]

theorem mem_keys_insert {m : KeyMap} {k v x : Bytes}
    (hx : x ∈ (m.insert k v).map Prod.fst) :
    x = k ∨ x ∈ m.map Prod.fst := by
  induction m with
  | nil =>
    simp [KeyMap.insert] at hx
    exact Or.inl hx
  | cons p rest ih =>
    obtain ⟨k0, v0⟩ := p
    by_cases h1 : lexLt k k0
    · simp [KeyMap.insert, h1] at hx
      rcases hx with h | h | h
      · exact Or.inl h
      · exact Or.inr (by simp [h])
      · exact Or.inr (by simp [h])
    · by_cases h2 : k = k0
      · subst h2
        simp [KeyMap.insert, h1] at hx
        rcases hx with h | h
        · exact Or.inl h
        · exact Or.inr (by simp [h])
      · simp [KeyMap.insert, h1, h2] at hx
        rcases hx with h | h
        · exact Or.inr (by simp [h])
        · rcases ih (by simpa using h) with h3 | h3
          · exact Or.inl h3
          · exact Or.inr (by simp; right; simpa using h3)

theorem mem_insert {m : KeyMap} {k v : Bytes} {p : Bytes × Bytes}
    (hp : p ∈ m.insert k v) : p = (k, v) ∨ p ∈ m := by
  induction m with
  | nil =>
    simp [KeyMap.insert] at hp
    exact Or.inl (by simp [hp])
  | cons q rest ih =>
    obtain ⟨k0, v0⟩ := q
    by_cases h1 : lexLt k k0
    · simp [KeyMap.insert, h1] at hp
      rcases hp with h | h | h
      · exact Or.inl (by simp [h])
      · exact Or.inr (by simp [h])
      · exact Or.inr (by simp [h])
    · by_cases h2 : k = k0
      · subst h2
        simp [KeyMap.insert, h1] at hp
        rcases hp with h | h
        · exact Or.inl (by simp [h])
        · exact Or.inr (by simp [h])
      · simp [KeyMap.insert, h1, h2] at hp
        rcases hp with h | h
        · exact Or.inr (by simp [h])
        · rcases ih h with h3 | h3
          · exact Or.inl h3
          · exact Or.inr (by simp [h3])

theorem mem_remove {m : KeyMap} {k : Bytes} {p : Bytes × Bytes}
    (hp : p ∈ m.remove k) : p ∈ m := by
  induction m with
  | nil => simp [KeyMap.remove] at hp
  | cons q rest ih =>
    obtain ⟨k0, v0⟩ := q
    by_cases h1 : k = k0
    · subst h1
      simp [KeyMap.remove] at hp
      simp [hp]
    · simp [KeyMap.remove, h1] at hp
      rcases hp with h | h
      · simp [h]
      · simp [ih h]

theorem sorted_insert {m : KeyMap} (hm : SortedKM m) (k v : Bytes) :
    SortedKM (m.insert k v) := by
  induction m with
  | nil => simp [KeyMap.insert, SortedKM]
  | cons p rest ih =>
    obtain ⟨k0, v0⟩ := p
    simp only [SortedKM, List.map_cons, List.pairwise_cons] at hm
    obtain ⟨hhead, htail⟩ := hm
    by_cases h1 : lexLt k k0
    · simp only [SortedKM, KeyMap.insert, h1, if_true, List.map_cons,
        List.pairwise_cons]
      refine ⟨?_, ?_, htail⟩
      · intro x hx
        simp at hx
        rcases hx with h | h
        · exact h ▸ h1
        · exact lexLt_trans h1 (hhead x (by simpa using h))
      · exact hhead
    · by_cases h2 : k = k0
      · subst h2
        have heq : KeyMap.insert ((k, v0) :: rest) k v = (k, v) :: rest := by
          simp [KeyMap.insert, lexLt_irrefl]
        rw [SortedKM, heq]
        simp only [List.map_cons, List.pairwise_cons]
        exact ⟨hhead, htail⟩
      · have heq : KeyMap.insert ((k0, v0) :: rest) k v =
            (k0, v0) :: KeyMap.insert rest k v := by
          simp [KeyMap.insert, h1, h2]
        rw [SortedKM, heq]
        simp only [List.map_cons, List.pairwise_cons]
        refine ⟨?_, ih htail⟩
        intro x hx
        rcases mem_keys_insert (by simpa using hx) with h | h
        · subst h
          rcases lexLt_total x k0 with h3 | h3 | h3
          · exact absurd h3 (by simp [h1])
          · exact absurd h3 h2
          · exact h3
        · exact hhead x h

theorem remove_sublist (m : KeyMap) (k : Bytes) : (m.remove k).Sublist m := by
  induction m with
  | nil => simp [KeyMap.remove]
  | cons p rest ih =>
    obtain ⟨k0, v0⟩ := p
    by_cases h1 : k = k0
    · simp [KeyMap.remove, h1]
    · simp only [KeyMap.remove, h1, if_false]
      exact ih.cons₂ (k0, v0)

theorem sorted_remove {m : KeyMap} (hm : SortedKM m) (k : Bytes) :
    SortedKM (m.remove k) := by
  exact List.Pairwise.sublist ((remove_sublist m k).map Prod.fst) hm

theorem sorted_nodup_keys {m : KeyMap} (hm : SortedKM m) :
    (m.map Prod.fst).Nodup := by
  exact hm.imp (fun h => lexLt_ne h)

theorem get_eq_none_of_not_mem_keys {m : KeyMap} {k : Bytes}
    (h : k ∉ m.map Prod.fst) : m.get k = none := by
  induction m with
  | nil => simp [KeyMap.get]
  | cons p rest ih =>
    obtain ⟨k0, v0⟩ := p
    simp only [List.map_cons, List.mem_cons, not_or] at h
    simp [KeyMap.get, h.1, ih h.2]

theorem get_remove_self {m : KeyMap} (hm : (m.map Prod.fst).Nodup)
    (k : Bytes) : (m.remove k).get k = none := by
  induction m with
  | nil => simp [KeyMap.remove, KeyMap.get]
  | cons p rest ih =>
    obtain ⟨k0, v0⟩ := p
    simp only [List.map_cons, List.nodup_cons] at hm
    obtain ⟨hk0, htail⟩ := hm
    by_cases h1 : k = k0
    · subst h1
      simp only [KeyMap.remove, if_true]
      exact get_eq_none_of_not_mem_keys hk0
    · simp [KeyMap.remove, h1, KeyMap.get, ih htail]

theorem get_of_mem {m : KeyMap} (hm : (m.map Prod.fst).Nodup)
    {p : Bytes × Bytes} (hp : p ∈ m) : m.get p.1 = some p.2 := by
  induction m with
  | nil => simp at hp
  | cons q rest ih =>
    obtain ⟨k0, v0⟩ := q
    simp only [List.map_cons, List.nodup_cons] at hm
    rcases List.mem_cons.mp hp with h | h
    · subst h
      simp [KeyMap.get]
    · have hne : p.1 ≠ k0 := by
        intro he
        exact hm.1 (he ▸ List.mem_map_of_mem Prod.fst h)
      simp only [KeyMap.get, hne, if_false]
      exact ih hm.2 h

theorem mem_of_get {m : KeyMap} {k v : Bytes} (h : m.get k = some v) :
    (k, v) ∈ m := by
  induction m with
  | nil => simp [KeyMap.get] at h
  | cons q rest ih =>
    obtain ⟨k0, v0⟩ := q
    by_cases h1 : k = k0
    · subst h1
      simp only [KeyMap.get, if_true] at h
      simp [h.symm]
      simp at h
      simp [h]
    · simp only [KeyMap.get, h1, if_false] at h
      exact List.mem_cons_of_mem _ (ih h)

/-- `u32::to_be_bytes`: the four big-endian bytes of a 32-bit length. -/
def encodeU32 (n : Nat) : Bytes :=
  [n / 2 ^ 24 % 256, n / 2 ^ 16 % 256, n / 2 ^ 8 % 256, n % 256]

/-- `u32::from_be_bytes` on a 4-byte big-endian buffer (big-endian fold). -/
def decodeU32 (bs : Bytes) : Nat :=
  bs.foldl (fun acc b => acc * 256 + b) 0

theorem encodeU32_length (n : Nat) : (encodeU32 n).length = 4 := rfl

theorem decodeU32_encodeU32 {n : Nat} (h : n < 2 ^ 32) :
    decodeU32 (encodeU32 n) = n := by
  simp only [encodeU32, decodeU32, List.foldl]
  omega

/-- One on-disk record as written by `Log::write_entry` (engine.rs lines
313-334): `[key_len (4 bytes BE)][value_len (4 bytes BE)][key][value]`. -/
def encodeRecord (k v : Bytes) : Bytes :=
  encodeU32 k.length ++ encodeU32 v.length ++ k ++ v

/-- A log file: the concatenation of its records in append order. -/
def encodeLog : List (Bytes × Bytes) → Bytes
  | [] => []
  | (k, v) :: rs => encodeRecord k v ++ encodeLog rs

theorem encodeRecord_length (k v : Bytes) :
    (encodeRecord k v).length = 8 + k.length + v.length := by
  simp [encodeRecord, encodeU32]
  omega

set_option linter.unusedVariables false

/-- The loop of `Log::build_key_map` (engine.rs lines 286-307): starting at
offset 0, while bytes remain, read the two 4-byte big-endian length
prefixes, the key and the value (each via `read_exact(..).unwrap()`, so a
short read panics, modelled as `none`), then apply the record to the map:
`value_len == 0` removes the key, otherwise inserts.  The two header
reads are merged into a single 8-byte availability test; either way any
file tail shorter than what the reads demand yields `none`. -/
def buildKeyMapLoop (bytes : Bytes) (m : KeyMap) : Option KeyMap :=
  if hne : bytes = [] then some m
  else
    if h8 : 8 ≤ bytes.length then
      let keyLen := decodeU32 (bytes.take 4)
      let valLen := decodeU32 ((bytes.drop 4).take 4)
      let body := bytes.drop 8
      if hkey : keyLen ≤ body.length then
        if hval : valLen ≤ (body.drop keyLen).length then
          buildKeyMapLoop ((body.drop keyLen).drop valLen)
            (if valLen = 0 then m.remove (body.take keyLen)
             else m.insert (body.take keyLen) ((body.drop keyLen).take valLen))
        else none
      else none
    else none
termination_by bytes.length
decreasing_by
  simp only [List.length_drop]
  have : bytes.length ≠ 0 := fun h => hne (List.length_eq_zero.mp h)
  omega

/-- `Log::build_key_map` (engine.rs lines 279-309): replay the whole file
into a fresh index; `none` models the `unwrap()` panic on a read failure. -/
def buildKeyMap (bytes : Bytes) : Option KeyMap :=
  buildKeyMapLoop bytes []

/-- The effect of a record list on an index: each record is an insert, or
a removal when its value is empty (the replay loop body). -/
def applyRecords : List (Bytes × Bytes) → KeyMap → KeyMap
  | [], m => m
  | (k, v) :: rs, m =>
    applyRecords rs (if v.length = 0 then m.remove k else m.insert k v)

/-- The value carried by the last record for `k` in a record list, if any
record for `k` exists (an empty value being a tombstone marker). -/
def lastValue : List (Bytes × Bytes) → Bytes → Option Bytes
  | [], _ => none
  | (k0, v0) :: rest, k =>
    match lastValue rest k with
    | some v => some v
    | none => if k0 = k then some v0 else none

/-- Outcome of an engine call: `Ok(())`, or an `io::Error` of kind
`InvalidInput` (the only error kind the validation path produces). -/
inductive EngineResult
  | ok
  | invalidInput
deriving DecidableEq, Repr

/-- The engine's state: the records of the append-only log file, in file
order, and the in-memory `key_map` index. -/
structure EngineState where
  log : List (Bytes × Bytes)
  keyMap : KeyMap
deriving DecidableEq, Repr

/-- `Log::write_entry` (engine.rs lines 313-334): panics (`none`) when
`key.len() > 1024 || value.len() > 256 * 1024`, otherwise appends the
record at the end of the file. -/
def writeEntry (log : List (Bytes × Bytes)) (k v : Bytes) :
    Option (List (Bytes × Bytes)) :=
  if k.length > 1024 || v.length > 256 * 1024 then none
  else some (log ++ [(k, v)])

/-- `Engine::get` (engine.rs lines 32-35): read the index only. -/
def Engine.get (s : EngineState) (k : Bytes) : Option Bytes :=
  s.keyMap.get k

/-- `Engine::del` (engine.rs lines 76-85): no-op when the key is absent,
otherwise append a tombstone (empty value) and remove the index entry. -/
def Engine.del (s : EngineState) (k : Bytes) :
    Option (EngineResult × EngineState) :=
  match s.keyMap.get k with
  | none => some (.ok, s)
  | some _ =>
    match writeEntry s.log k [] with
    | none => none
    | some log2 => some (.ok, { log := log2, keyMap := s.keyMap.remove k })

/-- `Engine::set` (engine.rs lines 40-72): reject keys over 1024 bytes and
values over 256 KiB with `InvalidInput`; an empty value delegates to
`del`; a value equal to the current one returns `Ok` without touching
anything; otherwise append the record and update the index. -/
def Engine.set (s : EngineState) (k v : Bytes) :
    Option (EngineResult × EngineState) :=
  if k.length > 1024 then some (.invalidInput, s)
  else if v.length > 256 * 1024 then some (.invalidInput, s)
  else if v.length = 0 then Engine.del s k
  else
    match s.keyMap.get k with
    | some existing =>
      if existing = v then some (.ok, s)
      else
        match writeEntry s.log k v with
        | none => none
        | some log2 => some (.ok, { log := log2, keyMap := s.keyMap.insert k v })
    | none =>
      match writeEntry s.log k v with
      | none => none
      | some log2 => some (.ok, { log := log2, keyMap := s.keyMap.insert k v })

/-- `std::collections::BTreeMap::range(lo..hi)` on the index: the entries
whose key lies in the half-open interval, in ascending key order.  The
standard library panics (`none`) when the range start exceeds the end. -/
def btreeRange (m : KeyMap) (lo hi : Bytes) : Option KeyMap :=
  if lexLt hi lo then none
  else some (m.filter fun p => lexLe lo p.1 && lexLt p.1 hi)

/-- `Engine::scan` (engine.rs lines 88-98): hand the range unchecked to
`BTreeMap::range` under the read lock and materialize the pairs. -/
def Engine.scan (s : EngineState) (lo hi : Bytes) : Option KeyMap :=
  btreeRange s.keyMap lo hi

/-- The loop of `Engine::construct_log` (engine.rs lines 123-135): write
one record per index entry into the fresh (truncated) file and copy the
entry into the fresh key map; `write_entry` panics (`none`) on an entry
violating the size bounds. -/
def constructLogLoop :
    KeyMap → List (Bytes × Bytes) → KeyMap →
    Option (List (Bytes × Bytes) × KeyMap)
  | [], log, km => some (log, km)
  | (k, v) :: rest, log, km =>
    match writeEntry log k v with
    | none => none
    | some log2 => constructLogLoop rest log2 (km.insert k v)

/-- `Engine::compact` (engine.rs lines 107-120): build the new log and key
map with `construct_log` over the live index and install them (the
renamed file replaces the old log wholesale). -/
def Engine.compact (s : EngineState) : Option EngineState :=
  match constructLogLoop s.keyMap [] [] with
  | none => none
  | some (log2, km2) => some { log := log2, keyMap := km2 }

/-- The implicit index invariant: every index entry has a key of at most
1024 bytes and a non-empty value of at most 262144 bytes. -/
def IndexInv (m : KeyMap) : Prop :=
  ∀ p ∈ m, p.1.length ≤ 1024 ∧ 1 ≤ p.2.length ∧ p.2.length ≤ 262144

theorem writeEntry_ok {log : List (Bytes × Bytes)} {k v : Bytes}
    (hk : k.length ≤ 1024) (hv : v.length ≤ 262144) :
    writeEntry log k v = some (log ++ [(k, v)]) := by
  have hcond : (decide (1024 < k.length) || decide (256 * 1024 < v.length))
      = false := by
    simp only [Bool.or_eq_false_iff, decide_eq_false_iff_not]
    constructor <;> omega
  simp [writeEntry, hcond]

/-- `set` on a size-valid key and non-empty size-valid value: either the
current value already equals `v` and nothing happens, or the record is
appended and the index entry replaced. -/
theorem set_valid_cases (s : EngineState) (k v : Bytes)
    (hk : k.length ≤ 1024) (hv1 : 1 ≤ v.length) (hv : v.length ≤ 262144) :
    (s.keyMap.get k = some v ∧ Engine.set s k v = some (EngineResult.ok, s)) ∨
    (s.keyMap.get k ≠ some v ∧ Engine.set s k v =
      some (EngineResult.ok,
        { log := s.log ++ [(k, v)], keyMap := s.keyMap.insert k v })) := by
  have hk2 : ¬(1024 < k.length) := by omega
  have hv2 : ¬(256 * 1024 < v.length) := by omega
  have hv0 : ¬(v.length = 0) := by omega
  have hw : writeEntry s.log k v = some (s.log ++ [(k, v)]) :=
    writeEntry_ok hk hv
  cases hg : s.keyMap.get k with
  | none =>
    right
    refine ⟨by simp [hg], ?_⟩
    simp [Engine.set, hk2, hv2, hv0, hg, hw]
  | some existing =>
    by_cases he : existing = v
    · subst he
      left
      exact ⟨rfl, by simp [Engine.set, hk2, hv2, hv0, hg]⟩
    · right
      refine ⟨?_, ?_⟩
      · simp [he]
      · simp [Engine.set, hk2, hv2, hv0, hg, he, hw]

/-- C1: for every key of at most 1024 bytes and every non-empty value of
at most 262144 bytes, `set(k, v)` succeeds with `Ok` and an immediately
following `get(k)` returns `Some(v)`. -/
theorem set_get_roundtrip (s : EngineState) (k v : Bytes)
    (hk : k.length ≤ 1024) (hv1 : 1 ≤ v.length) (hv : v.length ≤ 262144) :
    ∃ s2, Engine.set s k v = some (EngineResult.ok, s2) ∧
      Engine.get s2 k = some v := by
  rcases set_valid_cases s k v hk hv1 hv with ⟨hg, hset⟩ | ⟨hg, hset⟩
  · exact ⟨s, hset, by simp [Engine.get, hg]⟩
  · exact ⟨_, hset, by simp [Engine.get, get_insert_self]⟩

/-- C1 witness: a concrete instance of the round-trip property. -/
theorem set_get_roundtrip_witness :
    ∃ s2, Engine.set { log := [], keyMap := [] } [0] [1] =
        some (EngineResult.ok, s2) ∧ Engine.get s2 [0] = some [1] :=
  set_get_roundtrip { log := [], keyMap := [] } [0] [1]
    (by decide) (by decide) (by decide)

/-- C5: `set` with an oversized key (more than 1024 bytes) or an oversized
value (more than 262144 bytes) returns `InvalidInput` and leaves the whole
state — log and index — untouched. -/
theorem set_size_limit_rejected (s : EngineState) (k v : Bytes)
    (h : 1024 < k.length ∨ 262144 < v.length) :
    Engine.set s k v = some (EngineResult.invalidInput, s) := by
  by_cases hk : 1024 < k.length
  · simp [Engine.set, hk]
  · have hv : 256 * 1024 < v.length := by omega
    simp [Engine.set, hk, hv]

/-- C5 witness: a 1025-byte key is rejected with the state unchanged. -/
theorem set_size_limit_rejected_witness :
    Engine.set { log := [], keyMap := [] } (List.replicate 1025 0) [1] =
      some (EngineResult.invalidInput, { log := [], keyMap := [] }) :=
  set_size_limit_rejected { log := [], keyMap := [] }
    (List.replicate 1025 0) [1] (Or.inl (by rw [List.length_replicate]; omega))

/-- C10: `scan` hands the caller's range unchecked to `BTreeMap::range`,
which panics when the range start exceeds the range end, so for any state
a scan with `lo > hi` (byte-lexicographically) panics rather than
returning a result or an error. -/
theorem scan_reversed_range_panics (s : EngineState) (lo hi : Bytes)
    (h : lexLt hi lo = true) : Engine.scan s lo hi = none := by
  simp [Engine.scan, btreeRange, h]

/-- C10 witness: `scan([1]..[0])` panics on a concrete state. -/
theorem scan_reversed_range_panics_witness :
    Engine.scan { log := [], keyMap := [([0], [1])] } [1] [0] = none :=
  scan_reversed_range_panics { log := [], keyMap := [([0], [1])] }
    [1] [0] (by decide)

/-- C4: for a size-valid key and non-empty size-valid value, `set(k, v)`
when the index already maps `k` to `v` is an exact no-op (state returned
unchanged, no log record appended), and in a `set(k, v); set(k, v)`
sequence the second call never appends, so when the initial state does
not already map `k` to `v` the pair appends exactly one record. -/
theorem set_idempotent (s : EngineState) (k v : Bytes)
    (hk : k.length ≤ 1024) (hv1 : 1 ≤ v.length) (hv : v.length ≤ 262144) :
    (s.keyMap.get k = some v → Engine.set s k v = some (EngineResult.ok, s)) ∧
    (∀ s1, Engine.set s k v = some (EngineResult.ok, s1) →
      Engine.set s1 k v = some (EngineResult.ok, s1) ∧
      (s.keyMap.get k ≠ some v → s1.log = s.log ++ [(k, v)])) := by
  rcases set_valid_cases s k v hk hv1 hv with ⟨hg, hset⟩ | ⟨hg, hset⟩
  · refine ⟨fun _ => hset, fun s1 hs1 => ?_⟩
    rw [hset] at hs1
    obtain ⟨rfl⟩ : s = s1 := by
      simpa using hs1
    exact ⟨hset, fun hcon => absurd hg hcon⟩
  · refine ⟨fun hcon => absurd hcon hg, fun s1 hs1 => ?_⟩
    rw [hset] at hs1
    obtain ⟨rfl⟩ :
        ({ log := s.log ++ [(k, v)], keyMap := s.keyMap.insert k v }
          : EngineState) = s1 := by
      simpa using hs1
    have hg1 : (s.keyMap.insert k v).get k = some v := get_insert_self _ k v
    rcases set_valid_cases
        { log := s.log ++ [(k, v)], keyMap := s.keyMap.insert k v } k v
        hk hv1 hv with ⟨_, hset1⟩ | ⟨hcon, _⟩
    · exact ⟨hset1, fun _ => rfl⟩
    · exact absurd hg1 hcon

/-- C4 witness: a concrete instance of set idempotence. -/
theorem set_idempotent_witness :
    Engine.set { log := [([0], [1])], keyMap := [([0], [1])] } [0] [1] =
      some (EngineResult.ok, { log := [([0], [1])], keyMap := [([0], [1])] }) :=
  (set_idempotent { log := [([0], [1])], keyMap := [([0], [1])] } [0] [1]
    (by decide) (by decide) (by decide)).1 (by decide)

/-- C6 counterexample: `set` with a zero-length key and a non-empty value
is not rejected — it returns `Ok`, appends a log record and adds an index
entry. -/
theorem set_empty_key_counterexample :
    Engine.set { log := [], keyMap := [] } [] [42] =
      some (EngineResult.ok,
        { log := [([], [42])], keyMap := [([], [42])] }) := by
  decide

/-- C6 amended: zero-length keys are accepted on write — `set` with an
empty key and a non-empty value of at most 262144 bytes succeeds, makes
the empty key readable, and (when the empty key was not already bound to
`v`) appends exactly the record `([], v)` to the log. -/
theorem set_empty_key_accepted (s : EngineState) (v : Bytes)
    (hv1 : 1 ≤ v.length) (hv : v.length ≤ 262144) :
    ∃ s2, Engine.set s [] v = some (EngineResult.ok, s2) ∧
      Engine.get s2 [] = some v ∧
      (s.keyMap.get [] ≠ some v → s2.log = s.log ++ [([], v)]) := by
  rcases set_valid_cases s [] v (by simp) hv1 hv with ⟨hg, hset⟩ | ⟨hg, hset⟩
  · exact ⟨s, hset, by simp [Engine.get, hg], fun hcon => absurd hg hcon⟩
  · exact ⟨_, hset, by simp [Engine.get, get_insert_self], fun _ => rfl⟩

/-- C6 amended witness: a concrete accepted empty-key write. -/
theorem set_empty_key_accepted_witness :
    ∃ s2, Engine.set { log := [], keyMap := [] } [] [42] =
        some (EngineResult.ok, s2) ∧ Engine.get s2 [] = some [42] ∧
        (KeyMap.get [] [] ≠ some [42] → s2.log = [] ++ [([], [42])]) :=
  set_empty_key_accepted { log := [], keyMap := [] } [42]
    (by decide) (by decide)

theorem indexInv_insert {m : KeyMap} (hm : IndexInv m) {k v : Bytes}
    (hk : k.length ≤ 1024) (hv1 : 1 ≤ v.length) (hv : v.length ≤ 262144) :
    IndexInv (m.insert k v) := by
  intro p hp
  rcases mem_insert hp with h | h
  · subst h
    exact ⟨hk, hv1, hv⟩
  · exact hm p h

theorem indexInv_remove {m : KeyMap} (hm : IndexInv m) (k : Bytes) :
    IndexInv (m.remove k) :=
  fun p hp => hm p (mem_remove hp)

theorem constructLogLoop_mem {m : KeyMap} {log km : List (Bytes × Bytes)}
    {log2 : List (Bytes × Bytes)} {km2 : KeyMap}
    (h : constructLogLoop m log km = some (log2, km2)) :
    (∀ p ∈ km2, p ∈ km ∨ p ∈ m) ∧ (∀ p ∈ log2, p ∈ log ∨ p ∈ m) := by
  induction m generalizing log km with
  | nil =>
    simp only [constructLogLoop, Option.some_inj, Prod.mk.injEq] at h
    obtain ⟨rfl, rfl⟩ := h
    exact ⟨fun p hp => Or.inl hp, fun p hp => Or.inl hp⟩
  | cons q rest ih =>
    obtain ⟨k, v⟩ := q
    simp only [constructLogLoop] at h
    cases hw : writeEntry log k v with
    | none => rw [hw] at h; exact absurd h (by simp)
    | some log1 =>
      rw [hw] at h
      simp only at h
      have hlog1 : log1 = log ++ [(k, v)] := by
        by_cases hcond : (decide (1024 < k.length) ||
            decide (256 * 1024 < v.length)) = true
        · rw [writeEntry, if_pos hcond] at hw
          exact absurd hw (by simp)
        · rw [writeEntry, if_neg hcond] at hw
          exact (Option.some_inj.mp hw).symm
      subst hlog1
      obtain ⟨ihk, ihl⟩ := ih h
      constructor
      · intro p hp
        rcases ihk p hp with h2 | h2
        · rcases mem_insert h2 with h3 | h3
          · exact Or.inr (by simp [h3])
          · exact Or.inl h3
        · exact Or.inr (by simp [h2])
      · intro p hp
        rcases ihl p hp with h2 | h2
        · rcases List.mem_append.mp h2 with h3 | h3
          · exact Or.inl h3
          · exact Or.inr (by simp at h3; simp [h3])
        · exact Or.inr (by simp [h2])

/-- C9: starting from any state whose index satisfies the implicit
invariant (keys at most 1024 bytes, values non-empty and at most 262144
bytes), every operation — `set`, `del`, compaction — yields an index that
still satisfies it, and the read-only operations expose it: `get` never
returns `Some` of an empty value and `scan` never yields an empty value. -/
theorem engine_ops_preserve_index_inv (s : EngineState)
    (hInv : IndexInv s.keyMap) :
    (∀ k v r s2, Engine.set s k v = some (r, s2) → IndexInv s2.keyMap) ∧
    (∀ k r s2, Engine.del s k = some (r, s2) → IndexInv s2.keyMap) ∧
    (∀ s2, Engine.compact s = some s2 → IndexInv s2.keyMap) ∧
    (∀ k, Engine.get s k ≠ some ([] : Bytes)) ∧
    (∀ lo hi out, Engine.scan s lo hi = some out →
      ∀ p ∈ out, p.2 ≠ ([] : Bytes)) := by
  have hdel : ∀ k r s2, Engine.del s k = some (r, s2) → IndexInv s2.keyMap := by
    intro k r s2 h
    rw [Engine.del] at h
    cases hg : s.keyMap.get k with
    | none =>
      rw [hg] at h
      simp only [Option.some_inj, Prod.mk.injEq] at h
      exact h.2 ▸ hInv
    | some v0 =>
      rw [hg] at h
      simp only at h
      cases hw : writeEntry s.log k [] with
      | none => rw [hw] at h; exact absurd h (by simp)
      | some log2 =>
        rw [hw] at h
        simp only [Option.some_inj, Prod.mk.injEq] at h
        rw [← h.2]
        exact indexInv_remove hInv k
  refine ⟨?_, hdel, ?_, ?_, ?_⟩
  · intro k v r s2 h
    rw [Engine.set] at h
    by_cases hk : 1024 < k.length
    · rw [if_pos hk] at h
      simp only [Option.some_inj, Prod.mk.injEq] at h
      exact h.2 ▸ hInv
    · rw [if_neg hk] at h
      by_cases hv : 256 * 1024 < v.length
      · rw [if_pos hv] at h
        simp only [Option.some_inj, Prod.mk.injEq] at h
        exact h.2 ▸ hInv
      · rw [if_neg hv] at h
        by_cases hv0 : v.length = 0
        · rw [if_pos hv0] at h
          exact hdel k r s2 h
        · rw [if_neg hv0] at h
          have hw : writeEntry s.log k v = some (s.log ++ [(k, v)]) :=
            writeEntry_ok (by omega) (by omega)
          have hins : IndexInv (s.keyMap.insert k v) :=
            indexInv_insert hInv (by omega) (by omega) (by omega)
          cases hg : s.keyMap.get k with
          | none =>
            rw [hg] at h
            simp only [hw, Option.some_inj, Prod.mk.injEq] at h
            rw [← h.2]
            exact hins
          | some existing =>
            rw [hg] at h
            simp only at h
            by_cases he : existing = v
            · rw [if_pos he] at h
              simp only [Option.some_inj, Prod.mk.injEq] at h
              exact h.2 ▸ hInv
            · rw [if_neg he] at h
              simp only [hw, Option.some_inj, Prod.mk.injEq] at h
              rw [← h.2]
              exact hins
  · intro s2 h
    rw [Engine.compact] at h
    cases hc : constructLogLoop s.keyMap [] [] with
    | none => rw [hc] at h; exact absurd h (by simp)
    | some pair =>
      obtain ⟨log2, km2⟩ := pair
      rw [hc] at h
      simp only [Option.some_inj] at h
      rw [← h]
      intro p hp
      rcases (constructLogLoop_mem hc).1 p hp with h2 | h2
      · simp at h2
      · exact hInv p h2
  · intro k hcon
    have := hInv _ (mem_of_get hcon)
    simp at this
  · intro lo hi out h p hp
    rw [Engine.scan, btreeRange] at h
    by_cases hlh : lexLt hi lo
    · rw [if_pos hlh] at h
      exact absurd h (by simp)
    · rw [if_neg hlh] at h
      simp only [Option.some_inj] at h
      rw [← h] at hp
      have := hInv p (List.mem_of_mem_filter hp)
      intro hcon
      rw [hcon] at this
      simp at this

/-- C9 witness: a concrete instance of the invariant preservation. -/
theorem engine_ops_preserve_index_inv_witness :
    Engine.get { log := [], keyMap := [([0], [1])] } [0] ≠
      some ([] : Bytes) :=
  (engine_ops_preserve_index_inv { log := [], keyMap := [([0], [1])] }
    (by intro p hp; simp at hp; simp [hp])).2.2.2.1 [0]

theorem insert_append_of_forall_lt {km : KeyMap} {k v : Bytes}
    (h : ∀ x ∈ km.map Prod.fst, lexLt x k = true) :
    km.insert k v = km ++ [(k, v)] := by
  induction km with
  | nil => simp [KeyMap.insert]
  | cons q rest ih =>
    obtain ⟨k0, v0⟩ := q
    have hk0 : lexLt k0 k = true := h k0 (by simp)
    have h1 : ¬(lexLt k k0 = true) := by
      rw [lexLt_asymm hk0]
      simp
    have h2 : ¬(k = k0) := fun he => lexLt_ne hk0 he.symm
    simp only [KeyMap.insert, h1, if_false, h2]
    rw [ih (fun x hx => h x (by simp [hx]))]
    simp

theorem encodeLog_length (rs : List (Bytes × Bytes)) :
    (encodeLog rs).length =
      (rs.map fun p => 8 + p.1.length + p.2.length).sum := by
  induction rs with
  | nil => simp [encodeLog]
  | cons q rest ih =>
    obtain ⟨k, v⟩ := q
    simp only [encodeLog, List.length_append, encodeRecord_length, ih,
      List.map_cons, List.sum_cons]

theorem constructLogLoop_sorted {m : KeyMap}
    (hb : ∀ p ∈ m, p.1.length ≤ 1024 ∧ p.2.length ≤ 262144)
    (log : List (Bytes × Bytes)) (km : KeyMap)
    (hs : SortedKM (km ++ m)) :
    constructLogLoop m log km = some (log ++ m, km ++ m) := by
  induction m generalizing log km with
  | nil => simp [constructLogLoop]
  | cons q rest ih =>
    obtain ⟨k, v⟩ := q
    have hbq := hb (k, v) (by simp)
    have hw : writeEntry log k v = some (log ++ [(k, v)]) :=
      writeEntry_ok hbq.1 hbq.2
    have hlt : ∀ x ∈ km.map Prod.fst, lexLt x k = true := by
      intro x hx
      rw [SortedKM] at hs
      rcases List.mem_map.mp hx with ⟨p, hp, rfl⟩
      have := (List.pairwise_append.mp (by
        simpa [List.map_append] using hs)).2.2
      exact this p.1 (List.mem_map_of_mem Prod.fst hp) k (by simp)
    have hins : km.insert k v = km ++ [(k, v)] :=
      insert_append_of_forall_lt hlt
    simp only [constructLogLoop, hw, hins]
    have hs2 : SortedKM ((km ++ [(k, v)]) ++ rest) := by
      simpa [List.append_assoc] using hs
    have hb2 : ∀ p ∈ rest, p.1.length ≤ 1024 ∧ p.2.length ≤ 262144 :=
      fun p hp => hb p (by simp [hp])
    rw [ih hb2 (log ++ [(k, v)]) (km ++ [(k, v)]) hs2]
    simp

/-- C3: compacting a state whose (sorted) index satisfies the index
invariant succeeds and installs the index itself as the new log: one
record per live key (the keys are distinct), no tombstones (no empty
values), the on-disk byte length is exactly the sum of
`8 + |k| + |v|` over the live pairs, and the index content is unchanged. -/
theorem compact_spec (s : EngineState) (hs : SortedKM s.keyMap)
    (hInv : IndexInv s.keyMap) :
    Engine.compact s = some { log := s.keyMap, keyMap := s.keyMap } ∧
    (∀ p ∈ (s.keyMap : List (Bytes × Bytes)), p.2 ≠ ([] : Bytes)) ∧
    (s.keyMap.map Prod.fst).Nodup ∧
    (encodeLog s.keyMap).length =
      ((s.keyMap.map fun p => 8 + p.1.length + p.2.length).sum) := by
  refine ⟨?_, ?_, sorted_nodup_keys hs, encodeLog_length _⟩
  · have hb : ∀ p ∈ s.keyMap, p.1.length ≤ 1024 ∧ p.2.length ≤ 262144 :=
      fun p hp => ⟨(hInv p hp).1, (hInv p hp).2.2⟩
    have := constructLogLoop_sorted hb [] [] (by simpa using hs)
    rw [Engine.compact, this]
    simp
  · intro p hp
    have := (hInv p hp).2.1
    intro hcon
    rw [hcon] at this
    simp at this

/-- C3 witness: a concrete compaction of a state with one stale record. -/
theorem compact_spec_witness :
    Engine.compact { log := [([0], [7]), ([0], [8])], keyMap := [([0], [8])] }
      = some { log := [([0], [8])], keyMap := [([0], [8])] } :=
  (compact_spec { log := [([0], [7]), ([0], [8])], keyMap := [([0], [8])] }
    (by simp [SortedKM])
    (by intro p hp; simp at hp; simp [hp])).1

theorem buildKeyMapLoop_record (k v tail : Bytes) (m : KeyMap)
    (hk : k.length ≤ 1024) (hv : v.length ≤ 262144) :
    buildKeyMapLoop (encodeRecord k v ++ tail) m =
      buildKeyMapLoop tail
        (if v.length = 0 then m.remove k else m.insert k v) := by
  have hrec : encodeRecord k v ++ tail =
      encodeU32 k.length ++ (encodeU32 v.length ++ (k ++ (v ++ tail))) := by
    simp [encodeRecord, List.append_assoc]
  have hlen : (encodeRecord k v ++ tail).length =
      8 + k.length + v.length + tail.length := by
    rw [List.length_append, encodeRecord_length]
  have hne : encodeRecord k v ++ tail ≠ [] := by
    intro hcon
    rw [hcon] at hlen
    simp only [List.length_nil] at hlen
    omega
  have htake4 : (encodeRecord k v ++ tail).take 4 = encodeU32 k.length := by
    rw [hrec]
    exact List.take_left' (encodeU32_length _)
  have hdrop4 : (encodeRecord k v ++ tail).drop 4 =
      encodeU32 v.length ++ (k ++ (v ++ tail)) := by
    rw [hrec]
    exact List.drop_left' (encodeU32_length _)
  have htake4b : ((encodeRecord k v ++ tail).drop 4).take 4 =
      encodeU32 v.length := by
    rw [hdrop4]
    exact List.take_left' (encodeU32_length _)
  have hdrop8 : (encodeRecord k v ++ tail).drop 8 = k ++ (v ++ tail) := by
    rw [show (8 : Nat) = 4 + 4 from rfl, ← List.drop_drop, hdrop4]
    exact List.drop_left' (encodeU32_length _)
  have hkd : decodeU32 ((encodeRecord k v ++ tail).take 4) = k.length := by
    rw [htake4, decodeU32_encodeU32 (by omega)]
  have hvd : decodeU32 (((encodeRecord k v ++ tail).drop 4).take 4)
      = v.length := by
    rw [htake4b, decodeU32_encodeU32 (by omega)]
  rw [buildKeyMapLoop, dif_neg hne, dif_pos (by omega : 8 ≤
    (encodeRecord k v ++ tail).length)]
  simp only [hkd, hvd, hdrop8]
  rw [dif_pos (by simp : k.length ≤ (k ++ (v ++ tail)).length)]
  rw [List.take_left, List.drop_left]
  rw [dif_pos (by simp : v.length ≤ (v ++ tail).length)]
  rw [List.take_left, List.drop_left]

theorem buildKeyMapLoop_encodeLog (rs : List (Bytes × Bytes)) (tail : Bytes)
    (m : KeyMap)
    (hb : ∀ r ∈ rs, r.1.length ≤ 1024 ∧ r.2.length ≤ 262144) :
    buildKeyMapLoop (encodeLog rs ++ tail) m =
      buildKeyMapLoop tail (applyRecords rs m) := by
  induction rs generalizing m with
  | nil => simp [encodeLog, applyRecords]
  | cons q rest ih =>
    obtain ⟨k, v⟩ := q
    have hq := hb (k, v) (by simp)
    rw [encodeLog, List.append_assoc,
      buildKeyMapLoop_record k v _ m hq.1 hq.2, applyRecords]
    exact ih _ (fun r hr => hb r (by simp [hr]))

theorem buildKeyMapLoop_nil (m : KeyMap) : buildKeyMapLoop [] m = some m := by
  rw [buildKeyMapLoop]
  simp

theorem applyRecords_get (rs : List (Bytes × Bytes)) (m : KeyMap)
    (hm : SortedKM m) (k : Bytes) :
    SortedKM (applyRecords rs m) ∧
    (applyRecords rs m).get k =
      (match lastValue rs k with
       | some v => if v = [] then none else some v
       | none => m.get k) := by
  induction rs generalizing m with
  | nil => exact ⟨hm, by simp [applyRecords, lastValue]⟩
  | cons q rest ih =>
    obtain ⟨k0, v0⟩ := q
    by_cases hv0 : v0.length = 0
    · rw [applyRecords, if_pos hv0]
      have hv0e : v0 = [] := List.length_eq_zero.mp hv0
      subst hv0e
      obtain ⟨ihs, ihg⟩ := ih (m.remove k0) (sorted_remove hm k0)
      refine ⟨ihs, ?_⟩
      rw [ihg, lastValue]
      cases hl : lastValue rest k with
      | some v => simp
      | none =>
        by_cases hk : k0 = k
        · subst hk
          simp [get_remove_self (sorted_nodup_keys hm)]
        · simp [hk, get_remove_ne m k0 k (fun he => hk he.symm)]
    · rw [applyRecords, if_neg hv0]
      obtain ⟨ihs, ihg⟩ := ih (m.insert k0 v0) (sorted_insert hm k0 v0)
      refine ⟨ihs, ?_⟩
      rw [ihg, lastValue]
      cases hl : lastValue rest k with
      | some v => simp
      | none =>
        by_cases hk : k0 = k
        · subst hk
          have hv0ne : ¬(v0 = []) := fun he => hv0 (by simp [he])
          simp [get_insert_self, hv0ne]
        · simp [hk, get_insert_ne m k0 v0 k (fun he => hk he.symm)]

/-- C2: replaying a well-formed log file — the concatenation of complete
records — succeeds and rebuilds exactly the expected index: a key whose
last record carries a non-empty value maps to that value; a key whose
last record is a tombstone (`value_len = 0`), or that has no record at
all, is absent. -/
theorem replay_rebuilds_index (rs : List (Bytes × Bytes))
    (hb : ∀ r ∈ rs, r.1.length ≤ 1024 ∧ r.2.length ≤ 262144) :
    buildKeyMap (encodeLog rs) = some (applyRecords rs []) ∧
    ∀ k, (applyRecords rs []).get k =
      (match lastValue rs k with
       | some v => if v = [] then none else some v
       | none => none) := by
  constructor
  · rw [buildKeyMap, ← List.append_nil (encodeLog rs),
      buildKeyMapLoop_encodeLog rs [] [] hb, buildKeyMapLoop_nil]
  · intro k
    rw [(applyRecords_get rs [] (by simp [SortedKM]) k).2]
    cases lastValue rs k <;> simp [KeyMap.get]

/-- C2 witness: a concrete log with an overwrite and a tombstone. -/
theorem replay_rebuilds_index_witness :
    buildKeyMap (encodeLog [([0], [1]), ([2], [3]), ([0], [])]) =
      some (applyRecords [([0], [1]), ([2], [3]), ([0], [])] []) ∧
    (applyRecords [([0], [1]), ([2], [3]), ([0], [])] []).get [0] =
      (match lastValue [([0], [1]), ([2], [3]), ([0], [])] [0] with
       | some v => if v = [] then none else some v
       | none => none) :=
  ⟨(replay_rebuilds_index [([0], [1]), ([2], [3]), ([0], [])]
      (by intro r hr; simp at hr; rcases hr with h | h | h <;> simp [h])).1,
   (replay_rebuilds_index [([0], [1]), ([2], [3]), ([0], [])]
      (by intro r hr; simp at hr; rcases hr with h | h | h <;> simp [h])).2 [0]⟩

/-- A torn tail: a non-empty trailing fragment shorter than one complete
record — shorter than the 8-byte header, or shorter than the full record
size its own header fields declare. -/
def tornFragment (frag : Bytes) : Prop :=
  frag ≠ [] ∧
    (frag.length < 8 ∨
      frag.length <
        8 + decodeU32 (frag.take 4) + decodeU32 ((frag.drop 4).take 4))

theorem buildKeyMapLoop_torn (frag : Bytes) (m : KeyMap)
    (h : tornFragment frag) : buildKeyMapLoop frag m = none := by
  obtain ⟨hne, hshort⟩ := h
  rw [buildKeyMapLoop, dif_neg hne]
  by_cases h8 : 8 ≤ frag.length
  · rw [dif_pos h8]
    have hshort2 : frag.length <
        8 + decodeU32 (frag.take 4) + decodeU32 ((frag.drop 4).take 4) := by
      rcases hshort with h | h
      · omega
      · exact h
    simp only [List.length_drop]
    by_cases hkey : decodeU32 (frag.take 4) ≤ frag.length - 8
    · rw [dif_pos hkey, dif_neg (by omega)]
    · rw [dif_neg hkey]
  · rw [dif_neg h8]

/-- C8: the torn-tail policy is the fixed abort policy — replaying a file
made of complete records that end exactly at end-of-file succeeds, while
appending any non-empty fragment shorter than one complete record makes
replay fail (the `read_exact` unwrap panics, so the failure surfaces to
the caller of open); no index is ever built from misparsed bytes. -/
theorem replay_torn_tail_aborts (rs : List (Bytes × Bytes)) (frag : Bytes)
    (hb : ∀ r ∈ rs, r.1.length ≤ 1024 ∧ r.2.length ≤ 262144)
    (hfrag : tornFragment frag) :
    buildKeyMap (encodeLog rs) = some (applyRecords rs []) ∧
    buildKeyMap (encodeLog rs ++ frag) = none := by
  constructor
  · rw [buildKeyMap, ← List.append_nil (encodeLog rs),
      buildKeyMapLoop_encodeLog rs [] [] hb, buildKeyMapLoop_nil]
  · rw [buildKeyMap, buildKeyMapLoop_encodeLog rs frag [] hb,
      buildKeyMapLoop_torn frag _ hfrag]

/-- C8 witness: a complete one-record file replays; with a 3-byte
fragment appended, replay aborts. -/
theorem replay_torn_tail_aborts_witness :
    buildKeyMap (encodeLog [([0], [1])]) =
      some (applyRecords [([0], [1])] []) ∧
    buildKeyMap (encodeLog [([0], [1])] ++ [0, 0, 0]) = none :=
  replay_torn_tail_aborts [([0], [1])] [0, 0, 0]
    (by intro r hr; simp at hr; simp [hr]) (by constructor <;> simp)

/-- C7: for a sorted index and a range with `lo ≤ hi`, `scan(lo..hi)`
returns exactly the live pairs whose key lies in the half-open interval
`lo ≤ k < hi` — every returned pair is bound in the index and in range,
every live in-range pair is returned, and the output keys are strictly
ascending in byte-lexicographic order (hence each key appears once). -/
theorem scan_spec (s : EngineState) (lo hi : Bytes)
    (hs : SortedKM s.keyMap) (hlh : lexLe lo hi = true) :
    Engine.scan s lo hi =
      some (s.keyMap.filter fun p => lexLe lo p.1 && lexLt p.1 hi) ∧
    SortedKM (s.keyMap.filter fun p => lexLe lo p.1 && lexLt p.1 hi) ∧
    (∀ p ∈ s.keyMap.filter fun p => lexLe lo p.1 && lexLt p.1 hi,
      lexLe lo p.1 = true ∧ lexLt p.1 hi = true ∧
        s.keyMap.get p.1 = some p.2) ∧
    (∀ k v, s.keyMap.get k = some v → lexLe lo k = true →
      lexLt k hi = true →
      (k, v) ∈ s.keyMap.filter fun p => lexLe lo p.1 && lexLt p.1 hi) := by
  have hlt : ¬(lexLt hi lo = true) := by
    intro hcon
    rw [lexLe, hcon] at hlh
    simp at hlh
  refine ⟨?_, ?_, ?_, ?_⟩
  · rw [Engine.scan, btreeRange, if_neg hlt]
  · exact List.Pairwise.sublist
      ((List.filter_sublist s.keyMap).map Prod.fst) hs
  · intro p hp
    obtain ⟨hmem, hpred⟩ := List.mem_filter.mp hp
    simp only [Bool.and_eq_true] at hpred
    obtain ⟨h1, h2⟩ := hpred
    exact ⟨h1, h2, get_of_mem (sorted_nodup_keys hs) hmem⟩
  · intro k v hg h1 h2
    exact List.mem_filter.mpr ⟨mem_of_get hg, by simp [h1, h2]⟩

/-- C7 witness: a concrete in-range scan over a two-key index. -/
theorem scan_spec_witness :
    Engine.scan { log := [], keyMap := [([1], [5]), ([3], [6])] } [1] [3] =
      some (([([1], [5]), ([3], [6])] : KeyMap).filter
        fun p => lexLe [1] p.1 && lexLt p.1 [3]) ∧
    ([1], [5]) ∈ (([([1], [5]), ([3], [6])] : KeyMap).filter
      fun p => lexLe [1] p.1 && lexLt p.1 [3]) :=
  ⟨(scan_spec { log := [], keyMap := [([1], [5]), ([3], [6])] } [1] [3]
      (by rw [SortedKM]; decide) (by decide)).1,
   (scan_spec { log := [], keyMap := [([1], [5]), ([3], [6])] } [1] [3]
      (by rw [SortedKM]; decide) (by decide)).2.2.2 [1] [5]
      (by decide) (by decide) (by decide)⟩
